import Mathlib

set_option maxRecDepth 8000

/-!
Shallow embedding of the include-resolution engine of build.js
(functions parseAttributes and processIncludes), with text modelled as
List Char and the filesystem as a function from path to optional content.
The three regexes of the source are deterministic (their greedy
quantifier classes are disjoint from the literals that follow), so each
is embedded as a total matcher returning the captured groups and the
remainder of the text after the match.
-/

namespace Inc

/-- Character class of the JavaScript regex escape for whitespace, by code
point, as used by the include regex and by String.prototype.trim. -/
def isJsSpace (c : Char) : Bool :=
  decide (9 ≤ c.toNat ∧ c.toNat ≤ 13) || decide (c.toNat = 32) ||
  decide (c.toNat = 160) || decide (c.toNat = 0x1680) ||
  decide (0x2000 ≤ c.toNat ∧ c.toNat ≤ 0x200a) ||
  decide (c.toNat = 0x2028) || decide (c.toNat = 0x2029) ||
  decide (c.toNat = 0x202f) || decide (c.toNat = 0x205f) ||
  decide (c.toNat = 0x3000) || decide (c.toNat = 0xfeff)

/-- Character class of the JavaScript regex escape for word characters:
ASCII letters, digits and underscore. -/
def isWordChar (c : Char) : Bool :=
  decide (65 ≤ c.toNat ∧ c.toNat ≤ 90) || decide (97 ≤ c.toNat ∧ c.toNat ≤ 122) ||
  decide (48 ≤ c.toNat ∧ c.toNat ≤ 57) || decide (c.toNat = 95)

/-- Consume an exact literal at the head of the text, returning the
remainder, or none when the literal is not present. -/
def dropLit : List Char → List Char → Option (List Char)
  | [], l => some l
  | _ :: _, [] => none
  | p :: ps, c :: cs => if c = p then dropLit ps cs else none

/-- Split the text at the first occurrence of the stop character: the
greedy match of a negated single-character class followed by that literal
character. Returns the characters before the stop and those after it, or
none when the stop character does not occur. -/
def takeUntil (stop : Char) : List Char → Option (List Char × List Char)
  | [] => none
  | c :: cs =>
    if c = stop then some ([], cs)
    else
      match takeUntil stop cs with
      | some (a, b) => some (c :: a, b)
      | none => none

/-- Literal head of the include-directive regex. -/
def includeKw : List Char := ['<', 'i', 'n', 'c', 'l', 'u', 'd', 'e']

/-- Literal between the whitespace and the src capture in the
include-directive regex. -/
def srcEq : List Char := ['s', 'r', 'c', '=', '"']

/-- Literal between the key capture and the value capture in the
attribute regex. -/
def eqQuote : List Char := ['=', '"']

/-- Opening literal of the placeholder regex. -/
def phOpen : List Char := ['\x7b', '\x7b']

/-- Closing literal of the placeholder regex. -/
def phClose : List Char := ['\x7d', '\x7d']

/-- Head of the diagnostic comment emitted when an include target cannot
be read. -/
def markerPre : String := "<!-- Include Error: "

/-- Tail of the diagnostic comment emitted when an include target cannot
be read. -/
def markerSuf : String := " not found or processed -->"

/-- Diagnostic HTML comment for a failed include, naming the requested
source path, exactly as produced by the catch branch of processIncludes. -/
def errMarker (src : List Char) : List Char :=
  markerPre.data ++ src ++ markerSuf.data

/-- Match of the include-directive regex at the head of the text.
On success returns the two captured groups (the src path, which is
nonempty and quote-free, and the raw attribute text up to the closing
angle bracket) together with the text after the match. The regex is
deterministic: the whitespace run, the src capture and the attribute
capture are each maximal and uniquely determined. -/
def matchIncludeAt (l : List Char) : Option ((List Char × List Char) × List Char) :=
  match dropLit includeKw l with
  | none => none
  | some r1 =>
    match r1 with
    | [] => none
    | c :: _ =>
      if isJsSpace c then
        match dropLit srcEq (r1.dropWhile isJsSpace) with
        | none => none
        | some r3 =>
          match takeUntil '"' r3 with
          | none => none
          | some (src, r4) =>
            if src.isEmpty then none
            else
              match takeUntil '>' r4 with
              | none => none
              | some (attrs, rest) => some ((src, attrs), rest)
      else none

/-- Match of the attribute regex at the head of the text. On success
returns the key (a maximal nonempty word-character run) and the value
(nonempty, quote-free) together with the text after the match. -/
def matchAttrAt (l : List Char) : Option ((List Char × List Char) × List Char) :=
  let key := l.takeWhile isWordChar
  if key.isEmpty then none
  else
    match dropLit eqQuote (l.dropWhile isWordChar) with
    | none => none
    | some r =>
      match takeUntil '"' r with
      | none => none
      | some (v, rest) => if v.isEmpty then none else some ((key, v), rest)

/-- Match of the placeholder regex at the head of the text. On success
returns the captured name (a nonempty word-character run, surrounded by
optional whitespace inside the double braces) and the text after the
match. -/
def matchPlaceholderAt (l : List Char) : Option (List Char × List Char) :=
  match dropLit phOpen l with
  | none => none
  | some r1 =>
    let name := (r1.dropWhile isJsSpace).takeWhile isWordChar
    if name.isEmpty then none
    else
      match dropLit phClose
          (((r1.dropWhile isJsSpace).dropWhile isWordChar).dropWhile isJsSpace) with
      | none => none
      | some rest => some (name, rest)

/-- Result of one global scan-and-replace sweep: the rewritten text,
whether at least one match was found, and the captured groups of the
matches in order. -/
structure ScanOut (α : Type) where
  text : List Char
  found : Bool
  hits : List α
deriving DecidableEq

/-- Generic left-to-right global scan, as performed both by
String.prototype.replace with a global regex and by the exec loop of
parseAttributes: at each position try the matcher; on a match emit the
replacement and resume after the matched span (replacements are not
rescanned within the sweep); otherwise advance one character. Fuel
bounds the recursion and is set to the text length by scan. -/
def scanAux {α : Type} (M : List Char → Option (α × List Char)) (emit : α → List Char) :
    Nat → List Char → ScanOut α
  | 0, l => ⟨l, false, []⟩
  | _ + 1, [] => ⟨[], false, []⟩
  | fuel + 1, c :: rest =>
    match M (c :: rest) with
    | some (a, rem) =>
      let p := scanAux M emit fuel rem
      ⟨emit a ++ p.text, true, a :: p.hits⟩
    | none =>
      let p := scanAux M emit fuel rest
      ⟨c :: p.text, p.found, p.hits⟩

/-- One global scan-and-replace sweep over the whole text. -/
def scan {α : Type} (M : List Char → Option (α × List Char)) (emit : α → List Char)
    (l : List Char) : ScanOut α :=
  scanAux M emit l.length l

/-- Whether the matcher succeeds at some position of the text. -/
def hasMatch {α : Type} (M : List Char → Option (α × List Char)) : List Char → Bool
  | [] => false
  | c :: rest => (M (c :: rest)).isSome || hasMatch M rest

/-- Whether the matcher fails at every position lying inside the first
list when the second list is appended after it. -/
def cleanAcross {α : Type} (M : List Char → Option (α × List Char)) :
    List Char → List Char → Bool
  | [], _ => true
  | c :: cs, rest => (M (c :: (cs ++ rest))).isNone && cleanAcross M cs rest

/-- Attribute list collected by parseAttributes: the key and value
captures of the attribute regex, in match order, over the given raw
attribute text. -/
def parseAttributes (attrString : List Char) : List (List Char × List Char) :=
  (scan matchAttrAt (fun _ => []) attrString).hits

/-- Key of the inherited prototype accessor of a plain JavaScript
object: assigning a string to it is swallowed by the accessor and
creates no own property. -/
def protoName : List Char := "__proto__".data

/-- Member names of Object.prototype visible by property read on a
plain object literal in Node, the prototype chain behind the attributes
object of the replace callback. -/
def protoMembers : List (List Char) :=
  ["constructor", "hasOwnProperty", "isPrototypeOf", "propertyIsEnumerable",
    "toLocaleString", "toString", "valueOf", "__defineGetter__",
    "__defineSetter__", "__lookupGetter__", "__lookupSetter__",
    "__proto__"].map String.data

/-- Stringification of the prototype object read through the inherited
accessor. -/
def protoObjStr : String := "[object Object]"

/-- Head of the stringification of a native Object.prototype method. -/
def funcPre : String := "function "

/-- Tail of the stringification of a native Object.prototype method. -/
def funcSuf : String := "() \x7b [native code] \x7d"

/-- Text String.replace splices when the callback returns the member of
Object.prototype named name (Node): the prototype object itself for the
proto accessor, and the native-code function source for the methods. -/
def protoMemberStr (name : List Char) : List Char :=
  if name = protoName then protoObjStr.data
  else funcPre.data ++ name ++ funcSuf.data

/-- Own-property lookup on the attribute object built by the exec loop
of parseAttributes: assignments happen in match order, so for an
ordinary key the last pair wins; an assignment whose key is the
inherited proto accessor is swallowed and creates no own property. -/
def attrLookup : List (List Char × List Char) → List Char → Option (List Char)
  | [], _ => none
  | (k, v) :: rest, name =>
    match attrLookup rest name with
    | some v2 => some v2
    | none =>
      if k = name then (if k = protoName then none else some v) else none

/-- Value the replace callback of processIncludes produces for a
placeholder name: the JavaScript property read on the attribute object
followed by the or-empty fallback. An own property wins (its value is
nonempty, hence truthy); otherwise a member inherited from
Object.prototype is truthy and its stringification is spliced; only a
genuinely absent name falls through to the empty string. -/
def jsReadOrEmpty (attrs : List (List Char × List Char)) (name : List Char) : List Char :=
  match attrLookup attrs name with
  | some v => v
  | none => if protoMembers.contains name then protoMemberStr name else []

/-- Placeholder replace over a loaded component's content, every token
replaced by the callback value of its name. -/
def substComponent (attrs : List (List Char × List Char)) (l : List Char) : List Char :=
  (scan matchPlaceholderAt (fun name => jsReadOrEmpty attrs name) l).text

/-- Generic placeholder replace where each name maps to its own-property
value or the empty string; processIncludes runs it with the empty
attribute list, where it returns the empty string for every name,
exactly the final top-level replace of the source. -/
def substPlaceholders (attrs : List (List Char × List Char)) (l : List Char) : List Char :=
  (scan matchPlaceholderAt (fun name => (attrLookup attrs name).getD []) l).text

/-- Model of String.prototype.trim applied to the raw attribute capture. -/
def trimWs (l : List Char) : List Char :=
  ((l.dropWhile isJsSpace).reverse.dropWhile isJsSpace).reverse

/-- Model of Node's path.join as used by processIncludes: the include
src is appended under the fixed component root (path normalization is
irrelevant to the claims and is not modelled). -/
def pathJoin (base p : String) : String := base ++ "/" ++ p

/-- Replacement computed for one matched include directive, translated
from the replace callback of processIncludes: read the component at the
src path joined against the fixed component root; on success substitute
placeholders using the attributes parsed from the trimmed raw capture;
on a read failure emit the diagnostic comment instead. -/
def includeEmit (readFile : String → Option (List Char)) (baseComponentDir : String)
    (m : List Char × List Char) : List Char :=
  match readFile (pathJoin baseComponentDir (String.mk m.1)) with
  | some content => substComponent (parseAttributes (trimWs m.2)) content
  | none => errMarker m.1

/-- Maximum include depth of processIncludes. -/
def maxDepth : Nat := 10

/-- Multi-pass include loop of processIncludes, by remaining pass
budget: the source checks the counter with a post-increment against
maxDepth before each sweep, so the body runs for counter values 0 up to
maxDepth; a counter value of d corresponds to a remaining budget of
maxDepth + 1 - d, and exhausted budget corresponds to the cap return of
the partially processed text. -/
def processLoopAux (emit : (List Char × List Char) → List Char) :
    Nat → List Char → List Char
  | 0, l => l
  | fuel + 1, l =>
    let p := scan matchIncludeAt emit l
    if p.found then processLoopAux emit fuel p.text else p.text

/-- Multi-pass include loop indexed by the source's depth counter. -/
def processLoop (emit : (List Char × List Char) → List Char) (depth : Nat)
    (l : List Char) : List Char :=
  processLoopAux emit (maxDepth + 1 - depth) l

/-- Whether the multi-pass loop returns through the depth-cap branch
(every executed sweep still found a directive when the budget ran out). -/
def loopCapped (emit : (List Char × List Char) → List Char) :
    Nat → List Char → Bool
  | 0, _ => true
  | fuel + 1, l =>
    let p := scan matchIncludeAt emit l
    if p.found then loopCapped emit fuel p.text else false

/-- Single run of the multi-pass loop returning the resulting text and
whether the return happened through the depth-cap branch, which in the
source is an early return from inside the loop. -/
def processLoopRun (emit : (List Char × List Char) → List Char) :
    Nat → List Char → List Char × Bool
  | 0, l => (l, true)
  | fuel + 1, l =>
    let p := scan matchIncludeAt emit l
    if p.found then processLoopRun emit fuel p.text else (p.text, false)

/-- Full processIncludes of build.js: run the include loop from depth
counter zero; when the loop hits the depth cap the source returns the
partially processed text immediately from inside the loop, skipping the
final top-level replace; otherwise every remaining top-level
placeholder is removed (that final replace returns the empty string for
every name). -/
def processIncludes (readFile : String → Option (List Char)) (html : List Char)
    (baseComponentDir : String) : List Char :=
  let r := processLoopRun (includeEmit readFile baseComponentDir) (maxDepth + 1) html
  if r.2 then r.1 else substPlaceholders [] r.1

/-- Whether the pattern occurs as a contiguous segment of the text. -/
def containsSeg (pat : List Char) : List Char → Bool
  | [] => (dropLit pat []).isSome
  | c :: rest => (dropLit pat (c :: rest)).isSome || containsSeg pat rest

/-- Text of an include directive with the given whitespace run after the
keyword, src path and raw attribute text; this is the exact shape the
include regex recognizes, the raw attribute capture running up to the
closing angle bracket. -/
def includeTag (ws src attrs : List Char) : List Char :=
  includeKw ++ ws ++ srcEq ++ src ++ '"' :: attrs ++ '>' :: []

/-- Rendering of an attribute list as directive attribute text, each
pair in double-quote syntax followed by a single space. -/
def renderAttrs : List (List Char × List Char) → List Char
  | [] => []
  | (k, v) :: rest => k ++ '=' :: '"' :: v ++ '"' :: ' ' :: renderAttrs rest

/-- One JavaScript object property assignment over a lookup map: a
string assigned to the inherited proto accessor is swallowed and
changes nothing; any other key becomes or overwrites an own property. -/
def objAssign (m : List Char → Option (List Char)) (kv : List Char × List Char) :
    List Char → Option (List Char) :=
  if kv.1 = protoName then m else fun n => if n = kv.1 then some kv.2 else m n

/-- JavaScript object built by assigning the pairs left to right into an
initially empty object, as the exec loop of parseAttributes does. -/
def buildObj (ps : List (List Char × List Char)) : List Char → Option (List Char) :=
  ps.foldl objAssign (fun _ => none)

/-- Well-formedness of an attribute list: nonempty word-character keys
and nonempty quote-free values, the shapes the attribute regex captures. -/
def attrsWF : List (List Char × List Char) → Bool
  | [] => true
  | (k, v) :: rest =>
    !k.isEmpty && k.all isWordChar && !v.isEmpty &&
      v.all (fun c => !(c == '"')) && attrsWF rest

/-- Model of fs.readFileSync, which throws on a missing or unreadable
file: the error value carries the requested path. -/
def readFileE (readFile : String → Option (List Char)) (p : String) :
    Except String (List Char) :=
  match readFile p with
  | some c => Except.ok c
  | none => Except.error p

/-- Model of a JavaScript try/catch block producing text. -/
def tryCatchE (x : Except String (List Char))
    (handler : String → Except String (List Char)) : Except String (List Char) :=
  match x with
  | Except.ok v => Except.ok v
  | Except.error e => handler e

/-- Exception-aware replacement for one matched include directive: the
try block reads the component and substitutes placeholders, and the
catch block converts any read failure into the diagnostic comment. -/
def includeEmitE (readFile : String → Option (List Char)) (baseComponentDir : String)
    (m : List Char × List Char) : Except String (List Char) :=
  tryCatchE
    (match readFileE readFile (pathJoin baseComponentDir (String.mk m.1)) with
     | Except.ok content =>
       Except.ok (substComponent (parseAttributes (trimWs m.2)) content)
     | Except.error e => Except.error e)
    (fun _ => Except.ok (errMarker m.1))

/-- Exception-aware global scan: a replacement that throws aborts the
sweep and propagates the exception. -/
def scanAuxE (emitE : (List Char × List Char) → Except String (List Char)) :
    Nat → List Char → Except String (List Char × Bool)
  | 0, l => Except.ok (l, false)
  | _ + 1, [] => Except.ok ([], false)
  | fuel + 1, c :: rest =>
    match matchIncludeAt (c :: rest) with
    | some (a, rem) =>
      match emitE a with
      | Except.error e => Except.error e
      | Except.ok ea =>
        match scanAuxE emitE fuel rem with
        | Except.error e => Except.error e
        | Except.ok p => Except.ok (ea ++ p.1, true)
    | none =>
      match scanAuxE emitE fuel rest with
      | Except.error e => Except.error e
      | Except.ok p => Except.ok (c :: p.1, p.2)

/-- Exception-aware multi-pass include loop, returning the text and
whether the depth-cap branch returned it. -/
def processLoopRunE (emitE : (List Char × List Char) → Except String (List Char)) :
    Nat → List Char → Except String (List Char × Bool)
  | 0, l => Except.ok (l, true)
  | fuel + 1, l =>
    match scanAuxE emitE l.length l with
    | Except.error e => Except.error e
    | Except.ok p =>
      if p.2 then processLoopRunE emitE fuel p.1 else Except.ok (p.1, false)

/-- Exception-aware processIncludes: component reads may throw inside
the replace callback and are caught there; the final top-level replace
runs only when the loop did not return through the depth cap; an
uncaught exception would surface as an error value of this function. -/
def processIncludesE (readFile : String → Option (List Char)) (html : List Char)
    (baseComponentDir : String) : Except String (List Char) :=
  match processLoopRunE (includeEmitE readFile baseComponentDir) (maxDepth + 1) html with
  | Except.error e => Except.error e
  | Except.ok r => Except.ok (if r.2 then r.1 else substPlaceholders [] r.1)

/-- Fixed component root used by the concrete examples. -/
def cbase : String := "c"

/-- Empty component store. -/
def fsEmpty : String → Option (List Char) := fun _ => none

/-- Page text with a placeholder token and no include directive. -/
def phOnlyPage : String := "Hi \x7b\x7b name \x7d\x7d"

/-- Include directive referencing component A. -/
def tagA : String := "<include src=\"A\"/>"

/-- Component store in which component A includes itself. -/
def cycFs : String → Option (List Char) :=
  fun p => if p = "c/A" then some tagA.data else none

/-- Include directive referencing the missing component nope. -/
def tagNope : String := "<include src=\"nope\"/>"

/-- Component whose expansion reproduces itself and a directive whose
target is missing. -/
def compSelfNope : String := "<include src=\"A\"/><include src=\"nope\"/>"

/-- Component store in which component A includes itself and the missing
component nope. -/
def fsSelfNope : String → Option (List Char) :=
  fun p => if p = "c/A" then some compSelfNope.data else none

/-- Component A of the nested-inclusion example: it includes component B
and supplies the attribute x. -/
def compNestA : String := "<include src=\"B\" x=\"1\"/>"

/-- Component B of the nested-inclusion example: it uses the placeholder
x. -/
def compNestB : String := "val=\x7b\x7bx\x7d\x7d"

/-- Component store of the nested-inclusion example. -/
def fsNest : String → Option (List Char) :=
  fun p =>
    if p = "c/A" then some compNestA.data
    else if p = "c/B" then some compNestB.data
    else none

/-- Expected output of the nested-inclusion example. -/
def outNest : String := "val=1"

/-- Directive with an empty src value, which the include regex never
recognizes. -/
def emptySrcTag : String := "<include src=\"\"/>"

/-- Attribute text consisting of one pair with an empty quoted value. -/
def emptyValAttr : String := "a=\"\""

/-- Attribute text with an empty-valued pair followed by a well-formed
pair. -/
def mixedValAttr : String := "a=\"\" b=\"2\""

/-- Page text with no include directive and no placeholder. -/
def abcPage : String := "abc"

/-- Src path of the missing component in the examples. -/
def srcNope : String := "nope"

/-- Text preceding a directive in the missing-component example. -/
def preKeep : String := "keep "

/-- Text following a directive in the missing-component example. -/
def postTail : String := " tail"

/-- Attribute list with a duplicated key. -/
def psDup : List (List Char × List Char) := [(['a'], ['1']), (['a'], ['2'])]

/-- Duplicated key of psDup. -/
def kDup : List Char := ['a']

/-- Value of the last psDup pair with the duplicated key. -/
def vDup : List Char := ['2']

/-- Empty path used by the root-probe store. -/
def emptyPath : String := ""

/-- Component store holding content only at the empty path, which lies
outside every component root. -/
def rfProbe : String → Option (List Char) :=
  fun p => if p = emptyPath then some ['x'] else none

/-- Page text holding a top-level placeholder and a directive for the
self-including component. -/
def phxPage : String := "\x7b\x7b x \x7d\x7d<include src=\"A\"/>"

/-- Attribute list whose single pair uses the inherited proto accessor
as its key. -/
def psProto : List (List Char × List Char) := [(protoName, ['x'])]

theorem dropLit_self (p r : List Char) : dropLit p (p ++ r) = some r := by
  induction p with
  | nil => rfl
  | cons c cs ih => simp [dropLit, ih]

theorem dropLit_length {p l r : List Char} (h : dropLit p l = some r) :
    r.length + p.length = l.length := by
  induction p generalizing l with
  | nil =>
    simp only [dropLit] at h
    cases h
    simp
  | cons c cs ih =>
    cases l with
    | nil => simp [dropLit] at h
    | cons d ds =>
      simp only [dropLit] at h
      by_cases hd : d = c
      · rw [if_pos hd] at h
        have := ih h
        simp only [List.length_cons]
        omega
      · rw [if_neg hd] at h
        exact absurd h (by simp)

theorem takeUntil_length {stop : Char} {l a b : List Char}
    (h : takeUntil stop l = some (a, b)) : a.length + b.length + 1 = l.length := by
  induction l generalizing a b with
  | nil => simp [takeUntil] at h
  | cons c cs ih =>
    simp only [takeUntil] at h
    by_cases hc : c = stop
    · rw [if_pos hc] at h
      cases h
      simp
    · rw [if_neg hc] at h
      cases htu : takeUntil stop cs with
      | none => rw [htu] at h; exact absurd h (by simp)
      | some p =>
        rw [htu] at h
        cases h
        have := ih htu
        simp only [List.length_cons]
        omega

theorem takeUntil_append {stop : Char} {a : List Char} (b : List Char)
    (h : stop ∉ a) : takeUntil stop (a ++ stop :: b) = some (a, b) := by
  induction a with
  | nil => simp [takeUntil]
  | cons c cs ih =>
    simp only [List.mem_cons, not_or] at h
    have hc : ¬(c = stop) := fun hh => h.1 hh.symm
    have h2 := ih h.2
    simp only [List.cons_append, takeUntil, if_neg hc, List.append_eq]
    rw [h2]

theorem dropWhile_all_append {p : Char → Bool} {a : List Char} (r : List Char)
    (h : ∀ c ∈ a, p c = true) : (a ++ r).dropWhile p = r.dropWhile p := by
  induction a with
  | nil => rfl
  | cons c cs ih =>
    simp only [List.cons_append, List.dropWhile_cons, h c (by simp)]
    exact ih (fun d hd => h d (by simp [hd]))

theorem takeWhile_all_append {p : Char → Bool} {a : List Char} (r : List Char)
    (h : ∀ c ∈ a, p c = true) : (a ++ r).takeWhile p = a ++ r.takeWhile p := by
  induction a with
  | nil => rfl
  | cons c cs ih =>
    have hc := h c (by simp)
    have ih2 := ih (fun d hd => h d (by simp [hd]))
    simp [List.cons_append, List.takeWhile_cons, hc, ih2]

theorem dwLen (p : Char → Bool) (l : List Char) :
    (l.dropWhile p).length ≤ l.length :=
  (List.dropWhile_suffix p).length_le

theorem matchIncludeAt_consumes {l : List Char} {a : (List Char × List Char)}
    {rem : List Char} (h : matchIncludeAt l = some (a, rem)) :
    rem.length < l.length := by
  unfold matchIncludeAt at h
  cases h1 : dropLit includeKw l with
  | none => rw [h1] at h; exact absurd h (by simp)
  | some r1 =>
    rw [h1] at h
    have hl1 := dropLit_length h1
    cases r1 with
    | nil => exact absurd h (by simp [matchIncludeAt])
    | cons c cs =>
      dsimp only at h
      by_cases hsp : isJsSpace c
      · rw [if_pos hsp] at h
        cases h3 : dropLit srcEq ((c :: cs).dropWhile isJsSpace) with
        | none => rw [h3] at h; exact absurd h (by simp)
        | some r3 =>
          rw [h3] at h
          dsimp only at h
          have hl3 := dropLit_length h3
          have hdw : ((c :: cs).dropWhile isJsSpace).length ≤ (c :: cs).length :=
            dwLen _ _
          cases h4 : takeUntil '"' r3 with
          | none => rw [h4] at h; exact absurd h (by simp)
          | some sr =>
            rw [h4] at h
            obtain ⟨src, r4⟩ := sr
            dsimp only at h
            have hl4 := takeUntil_length h4
            by_cases hse : src.isEmpty
            · rw [if_pos hse] at h; exact absurd h (by simp)
            · rw [if_neg hse] at h
              cases h5 : takeUntil '>' r4 with
              | none => rw [h5] at h; exact absurd h (by simp)
              | some ar =>
                rw [h5] at h
                obtain ⟨attrs, rest⟩ := ar
                dsimp only at h
                have hl5 := takeUntil_length h5
                cases h
                simp only [includeKw, srcEq, List.length_cons] at hl1 hl3 hdw hl4 hl5 ⊢
                omega
      · rw [if_neg hsp] at h; exact absurd h (by simp)

theorem matchAttrAt_consumes {l : List Char} {a : (List Char × List Char)}
    {rem : List Char} (h : matchAttrAt l = some (a, rem)) :
    rem.length < l.length := by
  unfold matchAttrAt at h
  by_cases hk : (l.takeWhile isWordChar).isEmpty
  · rw [if_pos hk] at h; exact absurd h (by simp)
  · rw [if_neg hk] at h
    cases h2 : dropLit eqQuote (l.dropWhile isWordChar) with
    | none => rw [h2] at h; exact absurd h (by simp)
    | some r =>
      rw [h2] at h
      dsimp only at h
      have hl2 := dropLit_length h2
      have hdw : (l.dropWhile isWordChar).length ≤ l.length :=
        dwLen _ _
      cases h3 : takeUntil '"' r with
      | none => rw [h3] at h; exact absurd h (by simp)
      | some vr =>
        rw [h3] at h
        obtain ⟨v, rest⟩ := vr
        dsimp only at h
        have hl3 := takeUntil_length h3
        by_cases hv : v.isEmpty
        · rw [if_pos hv] at h; exact absurd h (by simp)
        · rw [if_neg hv] at h
          cases h
          simp only [eqQuote, List.length_cons] at hl2 hl3 ⊢
          omega

theorem scanAux_nil {α : Type} (M : List Char → Option (α × List Char))
    (emit : α → List Char) (f : Nat) : scanAux M emit f [] = ⟨[], false, []⟩ := by
  cases f <;> rfl

theorem scanAux_fuel {α : Type} {M : List Char → Option (α × List Char)}
    (emit : α → List Char)
    (hM : ∀ l a rem, M l = some (a, rem) → rem.length < l.length) :
    ∀ (f1 : Nat) (l : List Char) (f2 : Nat), l.length ≤ f1 → l.length ≤ f2 →
      scanAux M emit f1 l = scanAux M emit f2 l := by
  intro f1
  induction f1 with
  | zero =>
    intro l f2 h1 h2
    have hl : l = [] := List.length_eq_zero.mp (Nat.le_zero.mp h1)
    subst hl
    rw [scanAux_nil, scanAux_nil]
  | succ f ih =>
    intro l f2 h1 h2
    cases l with
    | nil => rw [scanAux_nil, scanAux_nil]
    | cons c rest =>
      cases f2 with
      | zero => simp at h2
      | succ f2x =>
        simp only [scanAux]
        cases hm : M (c :: rest) with
        | none =>
          have hr : rest.length ≤ f := by simp at h1; omega
          have hr2 : rest.length ≤ f2x := by simp at h2; omega
          simp only [ih rest f2x hr hr2]
        | some p =>
          obtain ⟨a, rem⟩ := p
          have hlt := hM _ _ _ hm
          simp only [List.length_cons] at hlt h1 h2
          have hr : rem.length ≤ f := by omega
          have hr2 : rem.length ≤ f2x := by omega
          simp only [ih rem f2x hr hr2]

theorem scanAux_noMatch {α : Type} {M : List Char → Option (α × List Char)}
    (emit : α → List Char) :
    ∀ (l : List Char), hasMatch M l = false → ∀ f, scanAux M emit f l = ⟨l, false, []⟩ := by
  intro l
  induction l with
  | nil => intro _ f; rw [scanAux_nil]
  | cons c rest ih =>
    intro h f
    simp only [hasMatch, Bool.or_eq_false_iff] at h
    cases f with
    | zero => rfl
    | succ fx =>
      cases hm : M (c :: rest) with
      | some p => rw [hm] at h; simp at h
      | none =>
        simp only [scanAux]
        rw [hm, ih h.2 fx]

theorem scan_noMatch {α : Type} (M : List Char → Option (α × List Char))
    (emit : α → List Char) {l : List Char} (h : hasMatch M l = false) :
    scan M emit l = ⟨l, false, []⟩ :=
  scanAux_noMatch emit l h _

theorem scanAux_found {α : Type} {M : List Char → Option (α × List Char)}
    (emit : α → List Char) :
    ∀ (l : List Char) (f : Nat), l.length ≤ f →
      (scanAux M emit f l).found = hasMatch M l := by
  intro l
  induction l with
  | nil => intro f _; rw [scanAux_nil]; rfl
  | cons c rest ih =>
    intro f hf
    cases f with
    | zero => simp at hf
    | succ fx =>
      simp only [scanAux, hasMatch]
      cases hm : M (c :: rest) with
      | some p => simp
      | none =>
        simp only [Option.isSome_none, Bool.false_or]
        have : rest.length ≤ fx := by simp at hf; omega
        exact ih fx this

theorem scan_found {α : Type} {M : List Char → Option (α × List Char)}
    (emit : α → List Char) (l : List Char) :
    (scan M emit l).found = hasMatch M l :=
  scanAux_found emit l l.length le_rfl

theorem scan_cons_none {α : Type} (M : List Char → Option (α × List Char))
    (emit : α → List Char) {c : Char} {rest : List Char}
    (h : M (c :: rest) = none) :
    scan M emit (c :: rest) =
      ⟨c :: (scan M emit rest).text, (scan M emit rest).found, (scan M emit rest).hits⟩ := by
  simp only [scan, List.length_cons, scanAux]
  rw [h]

theorem scan_head_match {α : Type} {M : List Char → Option (α × List Char)}
    (emit : α → List Char)
    (hM : ∀ l a rem, M l = some (a, rem) → rem.length < l.length)
    {l : List Char} {a : α} {rem : List Char} (h : M l = some (a, rem)) :
    scan M emit l =
      ⟨emit a ++ (scan M emit rem).text, true, a :: (scan M emit rem).hits⟩ := by
  have hlt := hM _ _ _ h
  cases l with
  | nil => simp at hlt
  | cons c rest =>
    simp only [scan, List.length_cons, scanAux]
    rw [h]
    dsimp only
    simp only [List.length_cons] at hlt
    have hfe : scanAux M emit rest.length rem = scanAux M emit rem.length rem :=
      scanAux_fuel emit hM rest.length rem rem.length (by omega) le_rfl
    rw [hfe]

theorem scan_append_clean {α : Type} {M : List Char → Option (α × List Char)}
    (emit : α → List Char) :
    ∀ (pre rest : List Char), cleanAcross M pre rest = true →
      scan M emit (pre ++ rest) =
        ⟨pre ++ (scan M emit rest).text, (scan M emit rest).found,
          (scan M emit rest).hits⟩ := by
  intro pre
  induction pre with
  | nil => intro rest _; simp
  | cons c cs ih =>
    intro rest h
    simp only [cleanAcross, Bool.and_eq_true, Option.isNone_iff_eq_none] at h
    have hstep := scan_cons_none M emit h.1
    simp only [List.cons_append]
    rw [hstep, ih rest h.2]

theorem dropWhile_stop {p : Char → Bool} {c : Char} (t : List Char) (h : p c = false) :
    (c :: t).dropWhile p = c :: t := by
  simp [List.dropWhile_cons, h]

theorem takeWhile_stop {p : Char → Bool} {c : Char} (t : List Char) (h : p c = false) :
    (c :: t).takeWhile p = [] := by
  simp [List.takeWhile_cons, h]

theorem matchIncludeAt_tag {ws src attrs : List Char} (post : List Char)
    (hws : ws ≠ []) (hwsa : ∀ c ∈ ws, isJsSpace c = true)
    (hsrc : src ≠ []) (hq : '"' ∉ src) (hg : '>' ∉ attrs) :
    matchIncludeAt (includeTag ws src attrs ++ post) = some ((src, attrs), post) := by
  cases ws with
  | nil => exact absurd rfl hws
  | cons w wsx =>
    have hw : isJsSpace w = true := hwsa w (by simp)
    have htag : includeTag (w :: wsx) src attrs ++ post =
        includeKw ++ (w :: (wsx ++ (srcEq ++ (src ++ '"' :: (attrs ++ '>' :: post))))) := by
      simp [includeTag]
    rw [htag]
    unfold matchIncludeAt
    rw [dropLit_self]
    dsimp only
    rw [if_pos hw]
    have hsq : isJsSpace 's' = false := by decide
    have hdw : (w :: (wsx ++ (srcEq ++ (src ++ '"' :: (attrs ++ '>' :: post))))).dropWhile
        isJsSpace = srcEq ++ (src ++ '"' :: (attrs ++ '>' :: post)) := by
      rw [List.dropWhile_cons, if_pos hw,
        dropWhile_all_append _ (fun c hc => hwsa c (by simp [hc]))]
      simp only [srcEq, List.cons_append]
      rw [dropWhile_stop _ hsq]
    have hse : src.isEmpty = false := by
      cases src with
      | nil => exact absurd rfl hsrc
      | cons a b => rfl
    rw [hdw, dropLit_self]
    dsimp only
    rw [takeUntil_append _ hq]
    dsimp only
    rw [hse, if_neg Bool.false_ne_true, takeUntil_append _ hg]

theorem matchAttrAt_pair {k v : List Char} (rest : List Char)
    (hk : k ≠ []) (hka : ∀ c ∈ k, isWordChar c = true)
    (hv : v ≠ []) (hqv : '"' ∉ v) :
    matchAttrAt (k ++ '=' :: '"' :: (v ++ '"' :: rest)) = some ((k, v), rest) := by
  have heqw : isWordChar '=' = false := by decide
  have htw : (k ++ '=' :: '"' :: (v ++ '"' :: rest)).takeWhile isWordChar = k := by
    rw [takeWhile_all_append _ hka, takeWhile_stop _ heqw, List.append_nil]
  have hdw : (k ++ '=' :: '"' :: (v ++ '"' :: rest)).dropWhile isWordChar =
      '=' :: '"' :: (v ++ '"' :: rest) := by
    rw [dropWhile_all_append _ hka, dropWhile_stop _ heqw]
  have hke : k.isEmpty = false := by
    cases k with
    | nil => exact absurd rfl hk
    | cons a b => rfl
  have hve : v.isEmpty = false := by
    cases v with
    | nil => exact absurd rfl hv
    | cons a b => rfl
  have hdl : dropLit eqQuote ('=' :: '"' :: (v ++ '"' :: rest)) =
      some (v ++ '"' :: rest) := dropLit_self eqQuote (v ++ '"' :: rest)
  unfold matchAttrAt
  dsimp only
  rw [htw, hke, if_neg Bool.false_ne_true, hdw, hdl]
  dsimp only
  rw [takeUntil_append _ hqv]
  dsimp only
  rw [hve, if_neg Bool.false_ne_true]

theorem attrLookup_foldl :
    ∀ (ps : List (List Char × List Char)) (m : List Char → Option (List Char))
      (k : List Char),
      ps.foldl objAssign m k =
        match attrLookup ps k with
        | some v => some v
        | none => m k := by
  intro ps
  induction ps with
  | nil => intro m k; rfl
  | cons kv rest ih =>
    intro m k
    obtain ⟨k0, v0⟩ := kv
    simp only [List.foldl_cons, attrLookup]
    rw [ih]
    cases hrest : attrLookup rest k with
    | some v => rfl
    | none =>
      dsimp only
      unfold objAssign
      by_cases hp : k0 = protoName
      · rw [if_pos hp]
        by_cases hk : k0 = k
        · rw [if_pos hk, if_pos hp]
        · rw [if_neg hk]
      · rw [if_neg hp]
        dsimp only
        by_cases hk : k0 = k
        · rw [if_pos hk, if_neg hp, if_pos hk.symm]
        · rw [if_neg hk, if_neg (fun hh => hk hh.symm)]

theorem attrLookup_protoName : ∀ ps : List (List Char × List Char),
    attrLookup ps protoName = none := by
  intro ps
  induction ps with
  | nil => rfl
  | cons kv rest ih =>
    obtain ⟨k, v⟩ := kv
    simp only [attrLookup, ih]
    by_cases hk : k = protoName
    · rw [if_pos hk, if_pos hk]
    · rw [if_neg hk]

theorem loopCapped_noMatch (emit : (List Char × List Char) → List Char)
    (fuel : Nat) {l : List Char} (h : hasMatch matchIncludeAt l = false) :
    loopCapped emit (fuel + 1) l = false := by
  simp only [loopCapped]
  rw [scan_noMatch _ _ h]
  rfl

theorem processLoopRun_eq (emit : (List Char × List Char) → List Char) :
    ∀ (fuel : Nat) (l : List Char),
      processLoopRun emit fuel l =
        (processLoopAux emit fuel l, loopCapped emit fuel l) := by
  intro fuel
  induction fuel with
  | zero => intro l; rfl
  | succ fx ih =>
    intro l
    simp only [processLoopRun, processLoopAux, loopCapped]
    cases hfound : (scan matchIncludeAt emit l).found with
    | true => rw [if_pos rfl, if_pos rfl, if_pos rfl, ih]
    | false =>
      rw [if_neg Bool.false_ne_true, if_neg Bool.false_ne_true,
        if_neg Bool.false_ne_true]

theorem not_mem_of_all_ne {v : List Char} {q : Char}
    (h : v.all (fun c => !(c == q)) = true) : q ∉ v := by
  intro hmem
  have := List.all_eq_true.mp h q hmem
  simp at this

theorem matchAttrAt_not_word {c : Char} (t : List Char) (h : isWordChar c = false) :
    matchAttrAt (c :: t) = none := by
  unfold matchAttrAt
  dsimp only
  rw [takeWhile_stop _ h]
  rfl

theorem parse_render {ps : List (List Char × List Char)} (hwf : attrsWF ps = true) :
    parseAttributes (renderAttrs ps) = ps := by
  induction ps with
  | nil => rfl
  | cons kv rest ih =>
    obtain ⟨k, v⟩ := kv
    simp only [attrsWF, Bool.and_eq_true] at hwf
    obtain ⟨⟨⟨⟨hk, hka⟩, hv⟩, hqv⟩, hrest⟩ := hwf
    have hkne : k ≠ [] := by
      cases k with
      | nil => simp at hk
      | cons a b => simp
    have hvne : v ≠ [] := by
      cases v with
      | nil => simp at hv
      | cons a b => simp
    have hkw : ∀ c ∈ k, isWordChar c = true := List.all_eq_true.mp hka
    have hvq : '"' ∉ v := not_mem_of_all_ne hqv
    have hmatch : matchAttrAt (renderAttrs ((k, v) :: rest)) =
        some ((k, v), ' ' :: renderAttrs rest) := by
      have := matchAttrAt_pair (' ' :: renderAttrs rest) hkne hkw hvne hvq
      simpa [renderAttrs] using this
    have hsc : isWordChar ' ' = false := by decide
    unfold parseAttributes
    rw [scan_head_match _ (fun l a rem hh => matchAttrAt_consumes hh) hmatch]
    dsimp only
    rw [scan_cons_none _ _ (matchAttrAt_not_word _ hsc)]
    dsimp only
    unfold parseAttributes at ih
    rw [ih hrest]

theorem processLoopAux_noMatch (emit : (List Char × List Char) → List Char)
    (fuel : Nat) {l : List Char} (h : hasMatch matchIncludeAt l = false) :
    processLoopAux emit fuel l = l := by
  cases fuel with
  | zero => rfl
  | succ fx =>
    simp only [processLoopAux]
    rw [scan_noMatch _ _ h]
    rfl

theorem loop_no_cap (emit : (List Char × List Char) → List Char) :
    ∀ (fuel : Nat) (l : List Char), loopCapped emit fuel l = false →
      hasMatch matchIncludeAt (processLoopAux emit fuel l) = false := by
  intro fuel
  induction fuel with
  | zero => intro l h; simp [loopCapped] at h
  | succ fx ih =>
    intro l h
    simp only [loopCapped] at h
    simp only [processLoopAux]
    cases hfound : (scan matchIncludeAt emit l).found with
    | true =>
      rw [hfound] at h
      rw [if_pos rfl] at h
      rw [if_pos rfl]
      exact ih _ h
    | false =>
      rw [if_neg Bool.false_ne_true]
      have hnm : hasMatch matchIncludeAt l = false := by
        rw [← scan_found emit l]
        exact hfound
      rw [scan_noMatch _ _ hnm]
      exact hnm

theorem includeEmitE_ok (readFile : String → Option (List Char)) (base : String)
    (m : List Char × List Char) :
    includeEmitE readFile base m = Except.ok (includeEmit readFile base m) := by
  unfold includeEmitE includeEmit readFileE tryCatchE
  cases readFile (pathJoin base (String.mk m.1)) <;> rfl

theorem scanAuxE_ok {emitE : (List Char × List Char) → Except String (List Char)}
    {emit : (List Char × List Char) → List Char}
    (hok : ∀ a, emitE a = Except.ok (emit a)) :
    ∀ (fuel : Nat) (l : List Char),
      scanAuxE emitE fuel l =
        Except.ok ((scanAux matchIncludeAt emit fuel l).text,
          (scanAux matchIncludeAt emit fuel l).found) := by
  intro fuel
  induction fuel with
  | zero => intro l; rfl
  | succ fx ih =>
    intro l
    cases l with
    | nil => rfl
    | cons c rest =>
      simp only [scanAuxE, scanAux]
      cases hm : matchIncludeAt (c :: rest) with
      | some p =>
        obtain ⟨a, rem⟩ := p
        dsimp only
        rw [hok a, ih rem]
      | none =>
        dsimp only
        rw [ih rest]

theorem processLoopRunE_ok {emitE : (List Char × List Char) → Except String (List Char)}
    {emit : (List Char × List Char) → List Char}
    (hok : ∀ a, emitE a = Except.ok (emit a)) :
    ∀ (fuel : Nat) (l : List Char),
      processLoopRunE emitE fuel l = Except.ok (processLoopRun emit fuel l) := by
  intro fuel
  induction fuel with
  | zero => intro l; rfl
  | succ fx ih =>
    intro l
    simp only [processLoopRunE, processLoopRun, scan]
    rw [scanAuxE_ok hok l.length l]
    dsimp only
    cases hfound : (scanAux matchIncludeAt emit l.length l).found with
    | true => rw [if_pos rfl, if_pos rfl, ih]
    | false => rw [if_neg Bool.false_ne_true, if_neg Bool.false_ne_true]

/-- C1 counterexample: the page text consisting of a placeholder token and
no include directive is not returned verbatim by processIncludes of
build.js, because the final top-level replace removes the placeholder. -/
theorem c1_counterexample :
    hasMatch matchIncludeAt phOnlyPage.data = false ∧
    processIncludes fsEmpty phOnlyPage.data cbase ≠ phOnlyPage.data := by
  constructor
  · decide
  · decide

/-- C1 (amended): for text with zero include directives the include loop
returns it unchanged and processIncludes returns it with every top-level
placeholder removed; when the text also contains no placeholder token it
is returned verbatim. -/
theorem c1_amended (readFile : String → Option (List Char)) (base : String)
    (html : List Char) (h : hasMatch matchIncludeAt html = false) :
    processIncludes readFile html base = substPlaceholders [] html ∧
    (hasMatch matchPlaceholderAt html = false →
      processIncludes readFile html base = html) := by
  have hpi : processIncludes readFile html base = substPlaceholders [] html := by
    unfold processIncludes
    dsimp only
    rw [processLoopRun_eq]
    dsimp only
    rw [loopCapped_noMatch _ _ h, if_neg Bool.false_ne_true,
      processLoopAux_noMatch _ _ h]
  refine ⟨hpi, fun hph => ?_⟩
  rw [hpi]
  unfold substPlaceholders
  rw [scan_noMatch _ _ hph]

/-- C1 witness: a page with neither directives nor placeholders passes
through unchanged. -/
theorem c1_witness : processIncludes fsEmpty abcPage.data cbase = abcPage.data :=
  (c1_amended fsEmpty cbase abcPage.data (by decide)).2 (by decide)

/-- C2: a directive whose src cannot be read is replaced in place by the
diagnostic comment naming that src, the preceding text is unchanged, the
directive counts as a found match, and the following text continues to be
scanned in the same sweep. -/
theorem c2_missing_marker (readFile : String → Option (List Char)) (base : String)
    (pre ws src attrs post : List Char)
    (hws : ws ≠ []) (hwsa : ∀ c ∈ ws, isJsSpace c = true)
    (hsrc : src ≠ []) (hq : '"' ∉ src) (hg : '>' ∉ attrs)
    (hmiss : readFile (pathJoin base (String.mk src)) = none)
    (hpre : cleanAcross matchIncludeAt pre (includeTag ws src attrs ++ post) = true) :
    scan matchIncludeAt (includeEmit readFile base)
        (pre ++ (includeTag ws src attrs ++ post)) =
      ⟨pre ++ (errMarker src ++
          (scan matchIncludeAt (includeEmit readFile base) post).text), true,
        (src, attrs) :: (scan matchIncludeAt (includeEmit readFile base) post).hits⟩ := by
  have hm := matchIncludeAt_tag post hws hwsa hsrc hq hg
  have hMc : ∀ (l : List Char) (a : (List Char × List Char)) (rem : List Char),
      matchIncludeAt l = some (a, rem) → rem.length < l.length :=
    fun l a rem hh => matchIncludeAt_consumes hh
  rw [scan_append_clean (includeEmit readFile base) pre _ hpre,
    scan_head_match (includeEmit readFile base) hMc hm]
  unfold includeEmit
  dsimp only
  rw [hmiss]

/-- C2 witness: the missing-component example with surrounding text. -/
theorem c2_witness :
    scan matchIncludeAt (includeEmit fsEmpty cbase)
        (preKeep.data ++ (includeTag [' '] srcNope.data [] ++ postTail.data)) =
      ⟨preKeep.data ++ (errMarker srcNope.data ++
          (scan matchIncludeAt (includeEmit fsEmpty cbase) postTail.data).text), true,
        (srcNope.data, []) ::
          (scan matchIncludeAt (includeEmit fsEmpty cbase) postTail.data).hits⟩ :=
  c2_missing_marker fsEmpty cbase preKeep.data [' '] srcNope.data [] postTail.data
    (by decide) (by decide) (by decide) (by decide) (by decide) (by decide) (by decide)

/-- C3: the multi-pass loop repeats only while a sweep found a directive
and the depth counter has not exceeded maxDepth; when the cap is hit,
processIncludes returns the text as currently expanded, skipping the
final top-level replace, exactly the early return of the source; on a
page with a top-level placeholder and a self-including component the
resolver terminates and returns the page with both the include
directive and the placeholder still present. -/
theorem c3_loop_cap :
    (∀ (emit : (List Char × List Char) → List Char) (depth : Nat) (l : List Char),
      (maxDepth < depth → processLoop emit depth l = l) ∧
      (depth ≤ maxDepth → processLoop emit depth l =
        (if (scan matchIncludeAt emit l).found then
          processLoop emit (depth + 1) (scan matchIncludeAt emit l).text
        else (scan matchIncludeAt emit l).text))) ∧
    (∀ (readFile : String → Option (List Char)) (base : String) (html : List Char),
      loopCapped (includeEmit readFile base) (maxDepth + 1) html = true →
      processIncludes readFile html base =
        processLoop (includeEmit readFile base) 0 html) ∧
    (processIncludes cycFs phxPage.data cbase = phxPage.data ∧
      hasMatch matchIncludeAt (processIncludes cycFs phxPage.data cbase) = true ∧
      hasMatch matchPlaceholderAt (processIncludes cycFs phxPage.data cbase) = true) := by
  refine ⟨?_, ?_, by decide, by decide, by decide⟩
  · intro emit depth l
    constructor
    · intro hd
      unfold processLoop
      have h0 : maxDepth + 1 - depth = 0 := by unfold maxDepth at hd ⊢; omega
      rw [h0]
      rfl
    · intro hd
      unfold processLoop
      have h1 : maxDepth + 1 - depth = (maxDepth - depth) + 1 := by
        unfold maxDepth at hd ⊢; omega
      have h2 : maxDepth + 1 - (depth + 1) = maxDepth - depth := by
        unfold maxDepth at hd ⊢; omega
      rw [h1, h2]
      simp only [processLoopAux]
  · intro readFile base html h
    unfold processIncludes
    dsimp only
    rw [processLoopRun_eq]
    dsimp only
    rw [h, if_pos rfl]
    rfl

/-- C3 witness: a capped run returns the loop text unchanged, with no
final placeholder replace. -/
theorem c3_witness :
    processIncludes cycFs tagA.data cbase =
      processLoop (includeEmit cycFs cbase) 0 tagA.data :=
  c3_loop_cap.2.1 cycFs cbase tagA.data (by decide)

/-- C4 counterexample: with a component that reproduces itself and a
missing-target directive, the depth cap is hit and the returned output
contains the missing-target directive verbatim, not replaced by the
diagnostic marker. -/
theorem c4_counterexample :
    fsSelfNope (pathJoin cbase (String.mk srcNope.data)) = none ∧
    containsSeg tagNope.data (processIncludes fsSelfNope tagA.data cbase) = true := by
  constructor
  · decide
  · decide

/-- C4 (amended): when the loop exits before the depth cap, the text at
loop exit contains no include directive at all, so every directive
reached in a completed sweep was replaced (by its expansion or by the
diagnostic marker); processIncludes then returns that text with
top-level placeholders removed. When the cap is hit, directives of
either kind may remain verbatim. -/
theorem c4_amended (readFile : String → Option (List Char)) (base : String)
    (html : List Char)
    (h : loopCapped (includeEmit readFile base) (maxDepth + 1) html = false) :
    hasMatch matchIncludeAt (processLoop (includeEmit readFile base) 0 html) = false ∧
    processIncludes readFile html base =
      substPlaceholders [] (processLoop (includeEmit readFile base) 0 html) := by
  constructor
  · exact loop_no_cap _ _ _ h
  · unfold processIncludes
    dsimp only
    rw [processLoopRun_eq]
    dsimp only
    rw [h, if_neg Bool.false_ne_true]
    rfl

/-- C4 witness: a page whose resolution ends before the cap. -/
theorem c4_witness :
    hasMatch matchIncludeAt
      (processLoop (includeEmit fsEmpty cbase) 0 phOnlyPage.data) = false :=
  (c4_amended fsEmpty cbase phOnlyPage.data (by decide)).1

/-- C5: the exception-aware resolver, in which component reads may throw
inside the replace callback and are caught there, always returns ok with
the pure result: no exception unwinds past processIncludes. -/
theorem c5_no_exception (readFile : String → Option (List Char)) (html : List Char)
    (base : String) :
    processIncludesE readFile html base =
      Except.ok (processIncludes readFile html base) := by
  unfold processIncludesE processIncludes
  rw [processLoopRunE_ok (includeEmitE_ok readFile base) (maxDepth + 1) html]

/-- C7: the nested-inclusion example expands across passes: component A
includes B with an attribute, B uses the placeholder, and resolving a
page that includes A yields the substituted text. -/
theorem c7_nested : processIncludes fsNest tagA.data cbase = outNest.data := by
  decide

/-- C8 counterexample: the parser does collect a pair whose key is the
inherited proto accessor, but the resulting attribute object maps that
key to no own property: the assignment is swallowed, so the set does
not map the key to the value of its last matching pair. -/
theorem c8_counterexample :
    parseAttributes (renderAttrs psProto) = psProto ∧
    attrLookup (parseAttributes (renderAttrs psProto)) protoName = none ∧
    jsReadOrEmpty (parseAttributes (renderAttrs psProto)) protoName ≠ ['x'] := by
  refine ⟨by decide, by decide, by decide⟩

/-- C8 (amended): on a rendered attribute list the parser collects
exactly the pairs left to right, and the lookup used by substitution
coincides with the JavaScript object built by assigning the pairs left
to right: for every ordinary key the last matching pair wins, while a
pair keyed by the inherited proto accessor is swallowed and creates no
mapping. -/
theorem c8_attrs (ps : List (List Char × List Char)) (hwf : attrsWF ps = true) :
    parseAttributes (renderAttrs ps) = ps ∧
    (∀ k, attrLookup (parseAttributes (renderAttrs ps)) k = buildObj ps k) ∧
    buildObj ps protoName = none := by
  refine ⟨parse_render hwf, ?_, ?_⟩
  · intro k
    rw [parse_render hwf]
    unfold buildObj
    rw [attrLookup_foldl]
    cases h : attrLookup ps k <;> rfl
  · unfold buildObj
    rw [attrLookup_foldl, attrLookup_protoName]

/-- C8 witness: a duplicated ordinary key resolves to the last value. -/
theorem c8_witness :
    attrLookup (parseAttributes (renderAttrs psDup)) kDup = some vDup := by
  rw [(c8_attrs psDup (by decide)).2.1 kDup]
  decide

/-- C9: the resolver consults the component store only at paths joined
against the fixed component root, in every pass and at every nesting
depth: two stores that agree on all paths under the root produce the
same output whatever they hold elsewhere. -/
theorem c9_fixed_root (rf1 rf2 : String → Option (List Char)) (base : String)
    (html : List Char)
    (h : ∀ s : String, rf1 (pathJoin base s) = rf2 (pathJoin base s)) :
    processIncludes rf1 html base = processIncludes rf2 html base := by
  have hemit : includeEmit rf1 base = includeEmit rf2 base := by
    funext m
    unfold includeEmit
    rw [h (String.mk m.1)]
  unfold processIncludes
  rw [hemit]

/-- C9 witness: a store holding content only at the empty path, which no
root-joined path can equal, is indistinguishable from the empty store. -/
theorem c9_witness :
    processIncludes rfProbe tagA.data cbase = processIncludes fsEmpty tagA.data cbase := by
  refine c9_fixed_root rfProbe fsEmpty cbase tagA.data (fun s => ?_)
  unfold rfProbe fsEmpty
  rw [if_neg]
  intro hcontra
  have hd := congrArg String.data hcontra
  rw [pathJoin] at hd
  rw [String.data_append, String.data_append] at hd
  exact absurd hd (by simp [cbase, emptyPath])

/-- C10: a directive with an empty src value is never recognized: the
include regex finds no match anywhere in it, a sweep leaves it verbatim
with no replacement counted, and processIncludes returns it unchanged;
likewise an attribute pair with an empty quoted value contributes no
entry to the attribute set. -/
theorem c10_empty_values :
    hasMatch matchIncludeAt emptySrcTag.data = false ∧
    (∀ emit : (List Char × List Char) → List Char,
      scan matchIncludeAt emit emptySrcTag.data = ⟨emptySrcTag.data, false, []⟩) ∧
    (∀ (readFile : String → Option (List Char)) (base : String),
      processIncludes readFile emptySrcTag.data base = emptySrcTag.data) ∧
    parseAttributes emptyValAttr.data = [] ∧
    parseAttributes mixedValAttr.data = [(['b'], ['2'])] := by
  have h1 : hasMatch matchIncludeAt emptySrcTag.data = false := by decide
  have hph : hasMatch matchPlaceholderAt emptySrcTag.data = false := by decide
  refine ⟨h1, fun emit => scan_noMatch _ _ h1, ?_, by decide, by decide⟩
  intro readFile base
  unfold processIncludes
  dsimp only
  rw [processLoopRun_eq]
  dsimp only
  rw [loopCapped_noMatch _ _ h1, if_neg Bool.false_ne_true,
    processLoopAux_noMatch _ _ h1]
  unfold substPlaceholders
  rw [scan_noMatch _ _ hph]

end Inc
